import Mathlib

set_option autoImplicit false

namespace HomeSystem

/- ## Serial device link — shallow embedding of `src/controllers/talker.py`

`Talker` owns one serial connection.  The serial transport itself is external
I/O; the embedding takes the bytes that `serial.read_until` returned (already
decoded) and whether `serial.write` succeeded as explicit inputs, and models
the pure reply-processing the Python code performs on them. -/

/-- Whitespace as removed by Python `str.strip()` (ASCII subset). -/
def pyIsSpace (c : Char) : Bool :=
  c = ' ' || c = '\t' || c = '\n' || c = '\r' || c = '\x0b' || c = '\x0c'

/-- Python `str.strip()` on a character list: drop leading and trailing whitespace. -/
def pyStripL (l : List Char) : List Char :=
  ((l.dropWhile pyIsSpace).reverse.dropWhile pyIsSpace).reverse

/-- Python `str.strip()`. -/
def pyStrip (s : String) : String := ⟨pyStripL s.data⟩

/-- Python `str.replace(">>> ", "")`: a single left-to-right scan removing every
non-overlapping occurrence of the four-character pattern `>>> `. -/
def stripPromptL : List Char → List Char
  | '>' :: '>' :: '>' :: ' ' :: rest => stripPromptL rest
  | c :: rest => c :: stripPromptL rest
  | [] => []

/-- `reply.replace(">>> ", "")` as performed in `Talker.send_to_pico`. -/
def stripPrompt (s : String) : String := ⟨stripPromptL s.data⟩

/-- Serial-link failures.  The Python code can only fail in `serial.write`
(raising out of `send_to_pico`); `timeout` is the failure mode the spec claims
for an incomplete read. -/
inductive LinkError
  | writeFailed
  | timeout
  deriving DecidableEq

/-- State of `Talker.__init__`: port name, id and the read timeout handed to
`serial.Serial(name, 115200, timeout=timeout)`. -/
structure Talker where
  name : String
  id : Int
  timeout : Nat

/-- `Talker.__init__(self, name, id, timeout=1)` — the timeout is fixed at
construction with default 1 second. -/
def Talker.init (name : String) (id : Int) (timeout : Nat := 1) : Talker :=
  ⟨name, id, timeout⟩

/-- `Talker.receive_from_pico`, given the decoded bytes `serial.read_until`
returned (on timeout that buffer is partial or empty):
`line.decode("UTF8").strip() + " " + self.name`. -/
def receive_from_pico (t : Talker) (buffer : String) : String :=
  pyStrip buffer ++ " " ++ t.name

/-- `Talker.send_to_pico`: writes the command line (`writeOk` says whether the
write raised), then returns `receive_from_pico(...).replace(">>> ", "")`.
No exception is raised on a timed-out (partial or empty) read. -/
def send_to_pico (t : Talker) (writeOk : Bool) (buffer : String) :
    Except LinkError String :=
  if writeOk then .ok (stripPrompt (receive_from_pico t buffer)) else .error .writeFailed

/-- Follows the words of the spec (claim C9): a read that timed out — i.e. a
buffer not terminated by the carriage-return terminator — is treated as a
failed round-trip (`LinkError`), not as a silent success. -/
def send_to_pico_claimC9 (t : Talker) (writeOk : Bool) (buffer : String) :
    Except LinkError String :=
  if ¬ writeOk then .error .writeFailed
  else if buffer.data.getLast? = some '\r' then
    .ok (stripPrompt (receive_from_pico t buffer))
  else .error .timeout

/-- Follows the words of claim C10: the reply is the received line with every
occurrence of `>>> ` removed, then stripped of surrounding whitespace, then
with a space and the serial port name appended. -/
def replyClaimC10 (t : Talker) (buffer : String) : String :=
  pyStrip (stripPrompt buffer) ++ " " ++ t.name

theorem stripPromptL_cons_ne {c : Char} (h : c ≠ '>') (l : List Char) :
    stripPromptL (c :: l) = c :: stripPromptL l := by
  rw [stripPromptL.eq_def]
  split
  · rename_i heq
    injection heq with h1 _
    exact absurd h1 h
  · rename_i heq
    injection heq with h1 h2
    subst h1; subst h2
    rfl
  · rename_i heq
    simp at heq

theorem stripPromptL_space_cons (l : List Char) :
    stripPromptL (' ' :: l) = ' ' :: stripPromptL l :=
  stripPromptL_cons_ne (by decide) l

theorem stripPromptL_append_of_not_mem {l1 : List Char} (h : '>' ∉ l1)
    (l2 : List Char) :
    stripPromptL (l1 ++ '>' :: '>' :: '>' :: ' ' :: l2) = l1 ++ stripPromptL l2 := by
  induction l1 with
  | nil => rfl
  | cons c cs ih =>
      have hc : c ≠ '>' := fun hcontra => h (by simp [hcontra])
      have hcs : '>' ∉ cs := fun hmem => h (List.mem_cons_of_mem _ hmem)
      simp only [List.cons_append, stripPromptL_cons_ne hc, ih hcs]

theorem stripPrompt_space_append_ne_empty (s : String) :
    stripPrompt (" " ++ s) ≠ "" := by
  have hrw : stripPrompt (" " ++ s) = ⟨' ' :: stripPromptL s.data⟩ := by
    simp only [stripPrompt]
    rw [show (" " ++ s).data = ' ' :: s.data from rfl, stripPromptL_space_cons]
  rw [hrw]
  simp [String.ext_iff]

/-- C9: the read timeout is bounded and fixed at construction (default 1 s) —
confirmed; but on timeout the code returns the partial or empty buffer as a
normal reply instead of failing with a link error.  Counterexample: an empty
(timed-out) read buffer produces the reply `" /dev/ttyACM0"` as a silent
success, while the claimed behaviour is a `LinkError`. -/
theorem c9_timeout_counterexample :
    send_to_pico (Talker.init "/dev/ttyACM0" 1) true "" = .ok " /dev/ttyACM0" ∧
    send_to_pico_claimC9 (Talker.init "/dev/ttyACM0" 1) true "" =
      .error .timeout :=
  ⟨rfl, rfl⟩

/-- C9 (amended): the read uses a bounded timeout fixed at construction with
default 1 second, and a write failure propagates an error to the caller; but
on a read timeout the partial or empty buffer is stripped, suffixed with the
port name and returned as a normal reply — no link error is raised.  In
particular an empty read yields the non-empty reply `" " ++ name` (with any
prompt occurrences removed), not a failure. -/
theorem c9_amended (name : String) (id : Int) (t : Talker) (buffer : String) :
    (Talker.init name id).timeout = 1 ∧
    send_to_pico t false buffer = .error .writeFailed ∧
    send_to_pico t true buffer =
      .ok (stripPrompt (pyStrip buffer ++ " " ++ t.name)) ∧
    send_to_pico t true "" = .ok (stripPrompt (" " ++ t.name)) ∧
    stripPrompt (" " ++ t.name) ≠ "" :=
  ⟨rfl, rfl, rfl, rfl, stripPrompt_space_append_ne_empty t.name⟩

/-- C10: the reply is not the received line processed in the claimed order
(prompt removal, then strip, then append port name) — the code strips and
appends the port name first and removes `">>> "` occurrences last, so a
trailing `">>>"` in the received line merges with the appended space and is
removed as well.  Counterexample: received line `">>>"` with port name `"p"`
yields reply `"p"`, while the claimed processing yields `">>> p"`. -/
theorem c10_reply_counterexample :
    send_to_pico (Talker.init "p" 1) true ">>>" = .ok "p" ∧
    replyClaimC10 (Talker.init "p" 1) ">>>" = ">>> p" ∧
    ("p" : String) ≠ ">>> p" :=
  ⟨rfl, rfl, by decide⟩

/-- C10 (amended): the reply is the received line stripped of surrounding
whitespace, with a space and the serial port name appended, and with every
(also non-leading) occurrence of `">>> "` then removed from that combined
string; consequently the reply is never the raw remote line verbatim and is
non-empty even when the read buffer was empty. -/
theorem c10_amended (t : Talker) (buffer : String) (l1 l2 : List Char)
    (h : '>' ∉ l1) :
    send_to_pico t true buffer =
      .ok (stripPrompt (pyStrip buffer ++ " " ++ t.name)) ∧
    stripPromptL (l1 ++ '>' :: '>' :: '>' :: ' ' :: l2) = l1 ++ stripPromptL l2 ∧
    send_to_pico t true "" = .ok (stripPrompt (" " ++ t.name)) ∧
    stripPrompt (" " ++ t.name) ≠ "" :=
  ⟨rfl, stripPromptL_append_of_not_mem h l2, rfl,
    stripPrompt_space_append_ne_empty t.name⟩

theorem c10_amended_witness :
    ('>' ∉ (['a', ' '] : List Char)) ∧
    (send_to_pico (Talker.init "p" 1) true "x" =
        .ok (stripPrompt (pyStrip "x" ++ " " ++ (Talker.init "p" 1).name)) ∧
      stripPromptL (['a', ' '] ++ '>' :: '>' :: '>' :: ' ' :: ['b']) =
        ['a', ' '] ++ stripPromptL ['b'] ∧
      send_to_pico (Talker.init "p" 1) true "" =
        .ok (stripPrompt (" " ++ (Talker.init "p" 1).name)) ∧
      stripPrompt (" " ++ (Talker.init "p" 1).name) ≠ "") :=
  ⟨by decide, c10_amended (Talker.init "p" 1) "x" ['a', ' '] ['b'] (by decide)⟩

/- ## Pin controller — shallow embedding of `src/controllers/pico_controller.py`

`PicoController` keeps `self.pin_states : dict[int, dict[int, bool]]` keyed by
talker id, and `self.talkers` keyed by talker id.  `get_pin_state` however
looks up the tuple `(talker_id, pin)` in `pin_states`.  A Python dict key can
be an int or a tuple and the two never compare equal, which the `PKey` type
models with two constructors. -/

/-- A Python dict key as used by `PicoController`: either an `int` talker id
or an `(int, int)` tuple. -/
inductive PKey
  | int (i : Int)
  | pair (i j : Int)
  deriving DecidableEq

/-- Python `d.get(k)` / membership test on a dict modelled as an association
list (first binding wins; keys are unique in all states we build). -/
def dGet {κ α : Type} [DecidableEq κ] (k : κ) (d : List (κ × α)) : Option α :=
  (d.find? fun p => decide (p.1 = k)).map (·.2)

/-- Python `d[k] = v`: replace the binding if the key is present, otherwise
append a new binding. -/
def dSet {κ α : Type} [DecidableEq κ] (k : κ) (v : α) (d : List (κ × α)) :
    List (κ × α) :=
  if (d.find? fun p => decide (p.1 = k)).isSome then
    d.map fun p => if p.1 = k then (k, v) else p
  else d ++ [(k, v)]

/-- The recorded pin states: the Python `self.pin_states` dict. -/
abbrev PinStates : Type := List (PKey × List (Int × Bool))

/-- `{pin: False for pin in range(1, 9)}`. -/
def initPins : List (Int × Bool) :=
  [(1, false), (2, false), (3, false), (4, false),
   (5, false), (6, false), (7, false), (8, false)]

/-- `PicoController.__init__`: pin states for the two talkers (ids 1 and 2),
every pin recorded as off. -/
def initPinStates : PinStates :=
  [(PKey.int 1, initPins), (PKey.int 2, initPins)]

/-- The keys of `self.talkers` (the two talker ids). -/
def talkerIds : List Int := [1, 2]

/-- `range(1, 9)` as iterated by the all-pins loops. -/
def pinRange : List Int := [1, 2, 3, 4, 5, 6, 7, 8]

/-- Exceptions a `PicoController` pin operation can raise. -/
inductive PicoError
  | keyError
  | link (e : LinkError)
  deriving DecidableEq

/-- Result of a controller operation: the pin states when it finished, the
wire commands attempted (in order), and the exception that propagated, if
any.  When `err` is set, `st` is the state at the moment the exception was
raised. -/
structure OpResult where
  st : PinStates
  cmds : List String
  err : Option PicoError
  deriving DecidableEq

/-- `PicoController.get_pin_state`:
`return self.pin_states.get((talker_id, pin), False)` — the lookup key is the
tuple `(talker_id, pin)`; when absent the default `False` is returned, and if
a value (an inner dict) were found, its Python truthiness (non-emptiness)
would be the returned "state". -/
def get_pin_state (ps : PinStates) (talker_id pin : Int) : Bool :=
  match dGet (PKey.pair talker_id pin) ps with
  | none => false
  | some inner => !inner.isEmpty

/-- The command string `f"turn_on_pin({pin})"`. -/
def onCmd (pin : Int) : String := "turn_on_pin(" ++ toString pin ++ ")"

/-- The command string `f"turn_off_pin({pin})"`. -/
def offCmd (pin : Int) : String := "turn_off_pin(" ++ toString pin ++ ")"

/-- `self.pin_states[talker_id][pin] = b` (both lookups correctly keyed by
talker id then pin).  The missing-id branch is unreachable: the callers have
already looked the id up in `self.talkers`, which has the same keys. -/
def setPin (ps : PinStates) (talker_id pin : Int) (b : Bool) : PinStates :=
  match dGet (PKey.int talker_id) ps with
  | some inner => dSet (PKey.int talker_id) (dSet pin b inner) ps
  | none => ps

/-- `PicoController.turn_on_pin`: `self.talkers[talker_id]` (KeyError on an
unknown id), then `send_to_pico(f"turn_on_pin({pin})")` whose outcome is the
`wire` argument; the pin is recorded as on only after the send returned, and
an exception propagates with the recorded states untouched. -/
def turn_on_pin (ps : PinStates) (talker_id pin : Int)
    (wire : Except LinkError String) : OpResult :=
  if talker_id ∈ talkerIds then
    match wire with
    | .ok _ => ⟨setPin ps talker_id pin true, [onCmd pin], none⟩
    | .error e => ⟨ps, [onCmd pin], some (.link e)⟩
  else ⟨ps, [], some .keyError⟩

/-- `PicoController.turn_off_pin`, analogous to `turn_on_pin`. -/
def turn_off_pin (ps : PinStates) (talker_id pin : Int)
    (wire : Except LinkError String) : OpResult :=
  if talker_id ∈ talkerIds then
    match wire with
    | .ok _ => ⟨setPin ps talker_id pin false, [offCmd pin], none⟩
    | .error e => ⟨ps, [offCmd pin], some (.link e)⟩
  else ⟨ps, [], some .keyError⟩

/-- The loop body of `turn_on_all_pins`: for each pin, send only when
`get_pin_state` says the pin is off; an exception stops the loop and
propagates.  `wire pin` is the outcome of the send for that pin. -/
def turn_on_all_pins_go (talker_id : Int)
    (wire : Int → Except LinkError String) :
    PinStates → List Int → OpResult
  | ps, [] => ⟨ps, [], none⟩
  | ps, pin :: rest =>
    if get_pin_state ps talker_id pin then
      turn_on_all_pins_go talker_id wire ps rest
    else
      let r := turn_on_pin ps talker_id pin (wire pin)
      match r.err with
      | some e => ⟨r.st, r.cmds, some e⟩
      | none =>
        let r2 := turn_on_all_pins_go talker_id wire r.st rest
        ⟨r2.st, r.cmds ++ r2.cmds, r2.err⟩

/-- `PicoController.turn_on_all_pins`: iterate pins 1..8. -/
def turn_on_all_pins (ps : PinStates) (talker_id : Int)
    (wire : Int → Except LinkError String) : OpResult :=
  turn_on_all_pins_go talker_id wire ps pinRange

/-- The loop body of `turn_off_all_pins`: for each pin, send only when
`get_pin_state` says the pin is on. -/
def turn_off_all_pins_go (talker_id : Int)
    (wire : Int → Except LinkError String) :
    PinStates → List Int → OpResult
  | ps, [] => ⟨ps, [], none⟩
  | ps, pin :: rest =>
    if get_pin_state ps talker_id pin then
      let r := turn_off_pin ps talker_id pin (wire pin)
      match r.err with
      | some e => ⟨r.st, r.cmds, some e⟩
      | none =>
        let r2 := turn_off_all_pins_go talker_id wire r.st rest
        ⟨r2.st, r.cmds ++ r2.cmds, r2.err⟩
    else
      turn_off_all_pins_go talker_id wire ps rest

/-- `PicoController.turn_off_all_pins`: iterate pins 1..8. -/
def turn_off_all_pins (ps : PinStates) (talker_id : Int)
    (wire : Int → Except LinkError String) : OpResult :=
  turn_off_all_pins_go talker_id wire ps pinRange

/-- One successful recorded call of `turn_on_pin` (flag `true`) or
`turn_off_pin` (flag `false`) for a talker id and pin. -/
def applyOp (ps : PinStates) : Bool × Int × Int → PinStates
  | (true, talker_id, pin) => (turn_on_pin ps talker_id pin (.ok "ok")).st
  | (false, talker_id, pin) => (turn_off_pin ps talker_id pin (.ok "ok")).st

/-- The pin states after any sequence of successful single-pin calls. -/
def applyOps (ops : List (Bool × Int × Int)) (ps : PinStates) : PinStates :=
  ops.foldl applyOp ps

/-- All keys of the `pin_states` dict are plain talker ids (never tuples). -/
def intKeyed (ps : PinStates) : Prop := ∀ kv ∈ ps, ∃ i, kv.1 = PKey.int i

theorem intKeyed_init : intKeyed initPinStates := by
  intro kv hkv
  simp only [initPinStates, List.mem_cons, List.mem_singleton] at hkv
  rcases hkv with h | h | h
  · exact ⟨1, by rw [h]⟩
  · exact ⟨2, by rw [h]⟩
  · exact absurd h (by simp)

theorem intKeyed_dSet {ps : PinStates} (h : intKeyed ps) (i : Int)
    (v : List (Int × Bool)) : intKeyed (dSet (PKey.int i) v ps) := by
  intro kv hkv
  simp only [dSet] at hkv
  split at hkv
  · rcases List.mem_map.mp hkv with ⟨p, hp, hpe⟩
    by_cases hpk : p.1 = PKey.int i
    · rw [if_pos hpk] at hpe
      exact ⟨i, by rw [← hpe]⟩
    · rw [if_neg hpk] at hpe
      exact hpe ▸ h p hp
  · rcases List.mem_append.mp hkv with hmem | hmem
    · exact h kv hmem
    · simp only [List.mem_singleton] at hmem
      exact ⟨i, by rw [hmem]⟩

theorem intKeyed_setPin {ps : PinStates} (h : intKeyed ps)
    (talker_id pin : Int) (b : Bool) :
    intKeyed (setPin ps talker_id pin b) := by
  unfold setPin
  cases dGet (PKey.int talker_id) ps with
  | none => exact h
  | some inner => exact intKeyed_dSet h talker_id (dSet pin b inner)

theorem intKeyed_applyOps (ops : List (Bool × Int × Int)) {ps : PinStates}
    (h : intKeyed ps) : intKeyed (applyOps ops ps) := by
  induction ops generalizing ps with
  | nil => exact h
  | cons op rest ih =>
      have hstep : intKeyed (applyOp ps op) := by
        rcases op with ⟨b, talker_id, pin⟩
        cases b <;>
          simp only [applyOp, turn_on_pin, turn_off_pin] <;>
          split <;>
          first
            | exact intKeyed_setPin h talker_id pin _
            | exact h
      exact ih hstep

theorem get_pin_state_of_intKeyed {ps : PinStates} (h : intKeyed ps)
    (talker_id pin : Int) : get_pin_state ps talker_id pin = false := by
  have hnone : dGet (PKey.pair talker_id pin) ps = none := by
    unfold dGet
    rw [List.find?_eq_none.mpr]
    · rfl
    · intro p hp
      rcases h p hp with ⟨i, hi⟩
      simp [hi]
  simp [get_pin_state, hnone]

theorem turn_off_all_go_of_intKeyed {ps : PinStates} (h : intKeyed ps)
    (talker_id : Int) (wire : Int → Except LinkError String)
    (pins : List Int) :
    turn_off_all_pins_go talker_id wire ps pins = ⟨ps, [], none⟩ := by
  induction pins with
  | nil => rfl
  | cons pin rest ih =>
      simp [turn_off_all_pins_go,
        get_pin_state_of_intKeyed h talker_id pin, ih]

theorem turn_on_all_go_cmds_of_intKeyed {ps : PinStates} (h : intKeyed ps)
    (talker_id : Int) (hm : talker_id ∈ talkerIds) (wresp : Int → String)
    (pins : List Int) :
    (turn_on_all_pins_go talker_id (fun p => .ok (wresp p)) ps pins).cmds =
      pins.map onCmd := by
  induction pins generalizing ps with
  | nil => rfl
  | cons pin rest ih =>
      have hget := get_pin_state_of_intKeyed h talker_id pin
      have hkeep : intKeyed (setPin ps talker_id pin true) :=
        intKeyed_setPin h talker_id pin true
      simp [turn_off_all_pins_go, turn_on_all_pins_go, hget, turn_on_pin, hm,
        ih hkeep]

/-- C4: after any sequence of successful `turn_on_pin` / `turn_off_pin`
calls, `get_pin_state` returns `False` for every talker id and pin (its tuple
key is never a key of the int-keyed `pin_states` dict), `turn_off_all_pins`
issues no wire command at all, and `turn_on_all_pins` re-sends the command
for every one of the eight pins. -/
theorem c4_get_pin_state_always_false (ops : List (Bool × Int × Int))
    (talker_id pin : Int) (wire : Int → Except LinkError String)
    (wresp : Int → String) (hm : talker_id ∈ talkerIds) :
    get_pin_state (applyOps ops initPinStates) talker_id pin = false ∧
    turn_off_all_pins (applyOps ops initPinStates) talker_id wire =
      ⟨applyOps ops initPinStates, [], none⟩ ∧
    (turn_on_all_pins (applyOps ops initPinStates) talker_id
        (fun p => .ok (wresp p))).cmds = pinRange.map onCmd := by
  have hkeys : intKeyed (applyOps ops initPinStates) :=
    intKeyed_applyOps ops intKeyed_init
  exact ⟨get_pin_state_of_intKeyed hkeys talker_id pin,
    turn_off_all_go_of_intKeyed hkeys talker_id wire pinRange,
    turn_on_all_go_cmds_of_intKeyed hkeys talker_id hm wresp pinRange⟩

theorem c4_get_pin_state_always_false_witness :
    ((1 : Int) ∈ talkerIds) ∧
    (get_pin_state (applyOps [(true, 1, 3)] initPinStates) 1 3 = false ∧
      turn_off_all_pins (applyOps [(true, 1, 3)] initPinStates) 1
          (fun _ => .ok "ok") =
        ⟨applyOps [(true, 1, 3)] initPinStates, [], none⟩ ∧
      (turn_on_all_pins (applyOps [(true, 1, 3)] initPinStates) 1
          (fun _ => .ok "ok")).cmds = pinRange.map onCmd) :=
  ⟨by decide,
    c4_get_pin_state_always_false [(true, 1, 3)] 1 3 (fun _ => .ok "ok")
      (fun _ => "ok") (by decide)⟩

/-- C3: pin-state idempotence fails in the code.  After a successful
`turn_on_all_pins(1)` every pin is recorded as on, yet `get_pin_state(1, 1)`
still returns `False` (the tuple-keyed lookup never consults the recorded
states), so an immediately repeated identical request re-sends all eight wire
commands instead of none: the decision to write is `true` on both of two
consecutive identical-state requests. -/
theorem c3_idempotence_violated :
    (turn_on_all_pins initPinStates 1 (fun _ => .ok "ok")).cmds =
      pinRange.map onCmd ∧
    get_pin_state (turn_on_all_pins initPinStates 1 (fun _ => .ok "ok")).st
      1 1 = false ∧
    (turn_on_all_pins
        (turn_on_all_pins initPinStates 1 (fun _ => .ok "ok")).st 1
        (fun _ => .ok "ok")).cmds = pinRange.map onCmd := by
  refine ⟨?_, ?_, ?_⟩ <;> rfl

/-- C8: if the wire send fails, the operation propagates the error and leaves
the recorded pin states unchanged; the recorded state is updated exactly when
the send returned successfully. -/
theorem c8_failed_write_atomic (ps : PinStates) (talker_id pin : Int)
    (e : LinkError) (r : String) (hm : talker_id ∈ talkerIds) :
    turn_on_pin ps talker_id pin (.error e) =
      ⟨ps, [onCmd pin], some (.link e)⟩ ∧
    turn_off_pin ps talker_id pin (.error e) =
      ⟨ps, [offCmd pin], some (.link e)⟩ ∧
    turn_on_pin ps talker_id pin (.ok r) =
      ⟨setPin ps talker_id pin true, [onCmd pin], none⟩ ∧
    turn_off_pin ps talker_id pin (.ok r) =
      ⟨setPin ps talker_id pin false, [offCmd pin], none⟩ := by
  simp [turn_on_pin, turn_off_pin, hm]

theorem c8_failed_write_atomic_witness :
    ((1 : Int) ∈ talkerIds) ∧
    (turn_on_pin initPinStates 1 2 (.error .writeFailed) =
        ⟨initPinStates, [onCmd 2], some (.link .writeFailed)⟩ ∧
      turn_off_pin initPinStates 1 2 (.error .writeFailed) =
        ⟨initPinStates, [offCmd 2], some (.link .writeFailed)⟩ ∧
      turn_on_pin initPinStates 1 2 (.ok "ok") =
        ⟨setPin initPinStates 1 2 true, [onCmd 2], none⟩ ∧
      turn_off_pin initPinStates 1 2 (.ok "ok") =
        ⟨setPin initPinStates 1 2 false, [offCmd 2], none⟩) :=
  ⟨by decide, c8_failed_write_atomic initPinStates 1 2 .writeFailed "ok"
    (by decide)⟩

/- ## Monitor service — shallow embedding of
`src/services/electricity_monitor_service.py`

Prices (cents/kWh, VAT inclusive) are modelled as rationals.  The collaborator
interactions of one loop iteration (wall clock, DB session, price fetch/store,
device control) are I/O; their outcomes are explicit inputs of `tick`. -/

/-- Python truthiness of an `Optional[bool]` field (`None` is falsy). -/
def pyTruthy : Option Bool → Bool
  | some b => b
  | none => false

/-- `ElectricityMonitorServiceStatus`. -/
structure MStatus where
  is_running : Bool
  current_price : Option ℚ
  new_data_should_be_available : Bool
  latest_data_fetched : Bool
  car_charging : Option Bool
  deriving DecidableEq

/-- The status right after `start()`: the model defaults of
`ElectricityMonitorServiceStatus` with `is_running` set to true. -/
def startStatus : MStatus :=
  { is_running := true, current_price := none,
    new_data_should_be_available := false, latest_data_fetched := false,
    car_charging := none }

/-- `app_settings.CAR_CHARGE_THRESHOLD_C` default. -/
def CAR_CHARGE_THRESHOLD_C : ℚ := 8

/-- A device command issued by the control policy: `turn_on_all_pins` or
`turn_off_all_pins` of the pico controller, for a talker id. -/
inductive CtlAction
  | turnOnAll (talker_id : Int)
  | turnOffAll (talker_id : Int)
  deriving DecidableEq

/-- `ElectricityMonitorService._car_charge_logic` (reached through
`_pico_control_logic`, which only delegates): below the threshold and not
already charging, issue turn-on-all for talker 1 and set `car_charging`; at
or above the threshold and charging, issue turn-off-all and clear it;
otherwise do nothing.  Returns the updated status and the commands issued. -/
def car_charge_logic (threshold price : ℚ) (st : MStatus) :
    MStatus × List CtlAction :=
  if price < threshold then
    if pyTruthy st.car_charging then (st, [])
    else ({st with car_charging := some true}, [.turnOnAll 1])
  else
    if !pyTruthy st.car_charging then (st, [])
    else ({st with car_charging := some false}, [.turnOffAll 1])

/-- The price-handling part of one tick with a successfully looked-up price
(lines 102–110): the control logic runs only when the price differs from the
last known `current_price`, which is then updated. -/
def price_step (threshold : ℚ) (st : MStatus) (price : ℚ) :
    MStatus × List CtlAction :=
  if some price ≠ st.current_price then
    let r := car_charge_logic threshold price st
    ({r.1 with current_price := some price}, r.2)
  else (st, [])

/-- `price_step` over a sequence of looked-up prices, collecting the device
commands issued at each index. -/
def run_prices (threshold : ℚ) (st : MStatus) :
    List ℚ → MStatus × List (List CtlAction)
  | [] => (st, [])
  | p :: rest =>
    let r := price_step threshold st p
    let rr := run_prices threshold r.1 rest
    (rr.1, r.2 :: rr.2)

theorem run_prices_concrete :
    (run_prices CAR_CHARGE_THRESHOLD_C startStatus
        [10, 79/10, 79/10, 81/10]).2 =
      [[], [CtlAction.turnOnAll 1], [], [CtlAction.turnOffAll 1]] := by
  have h1 : price_step CAR_CHARGE_THRESHOLD_C startStatus 10 =
      (⟨true, some 10, false, false, none⟩, []) := by
    norm_num [price_step, car_charge_logic, pyTruthy, startStatus,
      CAR_CHARGE_THRESHOLD_C]
    intro h
    simp at h
  have h2 : price_step CAR_CHARGE_THRESHOLD_C
      ⟨true, some 10, false, false, none⟩ (79/10) =
      (⟨true, some (79/10), false, false, some true⟩, [.turnOnAll 1]) := by
    norm_num [price_step, car_charge_logic, pyTruthy, CAR_CHARGE_THRESHOLD_C]
  have h3 : price_step CAR_CHARGE_THRESHOLD_C
      ⟨true, some (79/10), false, false, some true⟩ (79/10) =
      (⟨true, some (79/10), false, false, some true⟩, []) := by
    norm_num [price_step, car_charge_logic, pyTruthy, CAR_CHARGE_THRESHOLD_C]
  have h4 : price_step CAR_CHARGE_THRESHOLD_C
      ⟨true, some (79/10), false, false, some true⟩ (81/10) =
      (⟨true, some (81/10), false, false, some false⟩, [.turnOffAll 1]) := by
    norm_num [price_step, car_charge_logic, pyTruthy, CAR_CHARGE_THRESHOLD_C]
  simp [run_prices, h1, h2, h3, h4]

/-- C1: the threshold control policy.  For every invocation with a current
price: below the threshold and not already charging it issues turn-on-all for
the charging device and sets `car_charging`; at or above the threshold and
charging it issues turn-off-all and clears `car_charging`; otherwise no
device command is issued.  On the price sequence [10.0, 7.9, 7.9, 8.1] with
threshold 8.0 the monitor issues commands exactly at index 1 (turn on) and
index 3 (turn off); index 2 is filtered by the price-change gate. -/
theorem c1_threshold_policy (threshold price : ℚ) (st : MStatus) :
    (price < threshold → pyTruthy st.car_charging = false →
      car_charge_logic threshold price st =
        ({st with car_charging := some true}, [.turnOnAll 1])) ∧
    (threshold ≤ price → pyTruthy st.car_charging = true →
      car_charge_logic threshold price st =
        ({st with car_charging := some false}, [.turnOffAll 1])) ∧
    (price < threshold → pyTruthy st.car_charging = true →
      car_charge_logic threshold price st = (st, [])) ∧
    (threshold ≤ price → pyTruthy st.car_charging = false →
      car_charge_logic threshold price st = (st, [])) ∧
    (run_prices CAR_CHARGE_THRESHOLD_C startStatus
        [10, 79/10, 79/10, 81/10]).2 =
      [[], [.turnOnAll 1], [], [.turnOffAll 1]] := by
  refine ⟨?_, ?_, ?_, ?_, ?_⟩
  · intro hlt hc; simp [car_charge_logic, hlt, hc]
  · intro hge hc; simp [car_charge_logic, not_lt.mpr hge, hc]
  · intro hlt hc; simp [car_charge_logic, hlt, hc]
  · intro hge hc; simp [car_charge_logic, not_lt.mpr hge, hc]
  · exact run_prices_concrete

theorem c1_threshold_policy_witness :
    ((5 : ℚ) < 8 ∧ pyTruthy startStatus.car_charging = false) ∧
    car_charge_logic 8 5 startStatus =
      ({startStatus with car_charging := some true}, [.turnOnAll 1]) :=
  ⟨⟨by norm_num, rfl⟩,
    (c1_threshold_policy 8 5 startStatus).1 (by norm_num) rfl⟩

/-- The outcome of every collaborator interaction of one iteration of the
`while` loop in `_monitor_prices_task`:
* `hour`, `minute` — the Helsinki wall clock read by `_new_data_status_check`;
* `dailySessOk` — whether `get_session()` / `next(gen)` in the daily-fetch
  step succeeded (that call is guarded only by `try/finally`, no `except`);
* `tomorrowCheck` — `check_if_tomorrow_prices_exist(session)`: a boolean, or
  an exception (also guarded only by the `finally`);
* `dailyFetch` — `_fetch_and_save_prices()` in the daily-fetch step (every
  exception class is caught and logged there);
* `priceLookup` — `_get_current_price_c_per_kwh_vat()`: the price, or
  `ElectricityPriceNotFoundError` (the function converts every internal
  failure into that exception);
* `control` — the device operations of `_pico_control_logic` (exceptions are
  caught by the tick's blanket `except Exception` handler);
* `recoveryFetch` — `_fetch_and_save_prices()` on the not-found recovery path
  (every exception class is caught and logged; the outcome never changes the
  status, which is why it is not consulted below). -/
structure TickOutcome where
  hour : Nat
  minute : Nat
  dailySessOk : Bool
  tomorrowCheck : Except Unit Bool
  dailyFetch : Except Unit Unit
  priceLookup : Except Unit ℚ
  control : Except Unit Unit
  recoveryFetch : Except Unit Unit

/-- `ElectricityMonitorService._new_data_status_check`. -/
def new_data_status_check (hour minute : Nat) (st : MStatus) : MStatus :=
  let st1 :=
    if hour = 0 ∧ minute < 15 then
      { st with latest_data_fetched := false,
                new_data_should_be_available := false }
    else st
  if 14 ≤ hour ∧ st1.latest_data_fetched = false ∧
      st1.new_data_should_be_available = false then
    { st1 with new_data_should_be_available := true }
  else st1

/-- Lines 75–101 of `_monitor_prices_task` (the daily-fetch step). `.error`
means an exception escaped it: session acquisition and
`check_if_tomorrow_prices_exist` sit inside a `try/finally` with no `except`
clause, so their failures propagate; failures of `_fetch_and_save_prices`
are caught, leaving the retry flags untouched. -/
def daily_step (st1 : MStatus) (o : TickOutcome) : Except Unit MStatus :=
  if st1.latest_data_fetched = false ∧
      st1.new_data_should_be_available = true then
    if o.dailySessOk = false then .error ()
    else
      match o.tomorrowCheck with
      | .error _ => .error ()
      | .ok true =>
        .ok { st1 with latest_data_fetched := true,
                       new_data_should_be_available := false }
      | .ok false =>
        match o.dailyFetch with
        | .ok _ =>
          .ok { st1 with latest_data_fetched := true,
                         new_data_should_be_available := false }
        | .error _ => .ok st1
  else .ok st1

/-- Lines 102–131 of `_monitor_prices_task` (price lookup, control, not-found
recovery).  Every failure — price not found, device error, recovery-fetch
error — is caught by an `except` clause, so this part always completes. -/
def price_section (threshold : ℚ) (st2 : MStatus) (o : TickOutcome) :
    MStatus :=
  match o.priceLookup with
  | .ok price =>
    if some price ≠ st2.current_price then
      match o.control with
      | .ok _ =>
        let r := car_charge_logic threshold price st2
        { r.1 with current_price := some price }
      | .error _ => st2
    else st2
  | .error _ => st2

/-- One full iteration of the `while self.status.is_running` loop body.
`.error ()` means an exception escaped the loop body, terminating the task;
`.ok st'` means the tick completed and the loop sleeps and re-checks
`is_running`. -/
def tick (threshold : ℚ) (st : MStatus) (o : TickOutcome) :
    Except Unit MStatus :=
  match daily_step (new_data_status_check o.hour o.minute st) o with
  | .error e => .error e
  | .ok st2 => .ok (price_section threshold st2 o)

theorem new_data_status_check_is_running (hour minute : Nat) (st : MStatus) :
    (new_data_status_check hour minute st).is_running = st.is_running := by
  dsimp only [new_data_status_check]
  by_cases h1 : hour = 0 ∧ minute < 15 <;>
    simp only [h1, if_true, if_false, ite_true, ite_false] <;>
    split <;> rfl

theorem car_charge_logic_is_running (threshold price : ℚ) (st : MStatus) :
    (car_charge_logic threshold price st).1.is_running = st.is_running := by
  unfold car_charge_logic
  split <;> split <;> rfl

theorem price_section_is_running (threshold : ℚ) (st2 : MStatus)
    (o : TickOutcome) :
    (price_section threshold st2 o).is_running = st2.is_running := by
  unfold price_section
  split
  · split
    · split
      · simp [car_charge_logic_is_running]
      · rfl
    · rfl
  · rfl

theorem daily_step_is_running {st1 st2 : MStatus} {o : TickOutcome}
    (h : daily_step st1 o = .ok st2) : st2.is_running = st1.is_running := by
  unfold daily_step at h
  repeat' split at h
  all_goals try simp at h
  all_goals (subst h; rfl)

/-- C2: as stated, the claim is false — `check_if_tomorrow_prices_exist` and
the session acquisition preceding it are inside a `try/finally` with no
`except` clause, so a store error raised there escapes the loop body.
Counterexample: a tick at 15:00 with the daily-fetch step due whose
existence check raises ends the task with an uncaught exception. -/
theorem c2_loop_crash_counterexample :
    tick 8 startStatus
      ⟨15, 0, true, .error (), .ok (), .ok 10, .ok (), .ok ()⟩ =
      .error () := rfl

/-- C2 (amended): every collaborator failure during a tick is caught and the
loop proceeds to the next tick — except in the daily-fetch step, where
session acquisition and `check_if_tomorrow_prices_exist` are guarded only by
`try/finally`.  If the tick does not enter that step, or those two succeed,
the tick completes whatever the other collaborators do (fetch, store, price
lookup, device, recovery failures are all caught), and no tick ever modifies
the running flag: only an explicit stop request ends the loop. -/
theorem c2_amended (threshold : ℚ) (st : MStatus) (o : TickOutcome)
    (hsafe :
      (new_data_status_check o.hour o.minute st).latest_data_fetched = false ∧
        (new_data_status_check o.hour o.minute st).new_data_should_be_available
          = true →
      o.dailySessOk = true ∧ ∃ b, o.tomorrowCheck = .ok b) :
    (∃ st', tick threshold st o = .ok st') ∧
    (∀ st', tick threshold st o = .ok st' →
      st'.is_running = st.is_running) := by
  have hok : ∃ st2,
      daily_step (new_data_status_check o.hour o.minute st) o = .ok st2 := by
    unfold daily_step
    split
    · rename_i hcond
      obtain ⟨hsess, b, hb⟩ := hsafe hcond
      rw [if_neg (by simp [hsess]), hb]
      cases b
      · cases hfetch : o.dailyFetch with
        | ok u => exact ⟨_, rfl⟩
        | error e => exact ⟨_, rfl⟩
      · exact ⟨_, rfl⟩
    · exact ⟨_, rfl⟩
  obtain ⟨st2, hst2⟩ := hok
  constructor
  · exact ⟨price_section threshold st2 o, by rw [tick, hst2]⟩
  · intro st' h
    rw [tick, hst2] at h
    injection h with h
    subst h
    rw [price_section_is_running, daily_step_is_running hst2,
      new_data_status_check_is_running]

theorem c2_amended_witness :
    (((new_data_status_check 15 0 startStatus).latest_data_fetched = false ∧
        (new_data_status_check 15 0 startStatus).new_data_should_be_available
          = true →
      (true : Bool) = true ∧
        ∃ b, (Except.ok false : Except Unit Bool) = .ok b)) ∧
    ((∃ st', tick 8 startStatus
        ⟨15, 0, true, .ok false, .error (), .error (), .ok (), .error ()⟩ =
          .ok st') ∧
      (∀ st', tick 8 startStatus
          ⟨15, 0, true, .ok false, .error (), .error (), .ok (), .error ()⟩ =
            .ok st' → st'.is_running = startStatus.is_running)) :=
  ⟨fun _ => ⟨rfl, ⟨false, rfl⟩⟩,
    c2_amended 8 startStatus
      ⟨15, 0, true, .ok false, .error (), .error (), .ok (), .error ()⟩
      (fun _ => ⟨rfl, ⟨false, rfl⟩⟩)⟩

/- ## Position → timestamp — shallow embedding of
`src/helpers/elec_prices_helpers.py` -/

/-- A Gregorian calendar date, as produced by
`datetime.strptime(day, "%Y%m%d")`. -/
structure PyDate where
  year : Nat
  month : Nat
  day : Nat
  deriving DecidableEq

/-- A wall-clock timestamp: the `datetime` fields the helper produces (date
plus hour and minute; seconds and microseconds stay 0). -/
structure PyDateTime where
  year : Nat
  month : Nat
  day : Nat
  hour : Nat
  minute : Nat
  deriving DecidableEq

/-- Gregorian leap year. -/
def isLeap (y : Nat) : Bool :=
  (y % 4 = 0 && !(y % 100 = 0)) || y % 400 = 0

/-- Number of days of a month. -/
def daysInMonth (y m : Nat) : Nat :=
  if m = 2 then (if isLeap y then 29 else 28)
  else if m = 4 ∨ m = 6 ∨ m = 9 ∨ m = 11 then 30
  else 31

/-- The following calendar day. -/
def nextDay (d : PyDate) : PyDate :=
  if d.day < daysInMonth d.year d.month then ⟨d.year, d.month, d.day + 1⟩
  else if d.month < 12 then ⟨d.year, d.month + 1, 1⟩
  else ⟨d.year + 1, 1, 1⟩

/-- `date + timedelta(days=n)` for a non-negative day offset (`timedelta`
addition on an aware `datetime` is wall-clock calendar arithmetic). -/
def addDays (d : PyDate) : Nat → PyDate
  | 0 => d
  | n + 1 => addDays (nextDay d) n

/-- `position_to_timestamp(position, day)`: minutes from the day's midnight
are `60 + (position - 1) * 15`, split by `divmod(., 24*60)` into a day offset
and minutes-of-day, giving `target_date + timedelta(days=day_offset,
minutes=minutes_from_midnight)`.  Python ints are embedded as `Nat`,
restricted to the feed's domain `position ≥ 1` (so the subtraction and the
`divmod` are non-negative exactly as in Python). -/
def position_to_timestamp (position : Nat) (day : PyDate) : PyDateTime :=
  let minutes_from_start := 60 + (position - 1) * 15
  let day_offset := minutes_from_start / (24 * 60)
  let minutes_from_midnight := minutes_from_start % (24 * 60)
  let d := addDays day day_offset
  ⟨d.year, d.month, d.day, minutes_from_midnight / 60,
    minutes_from_midnight % 60⟩

/-- `t + timedelta(minutes=k)` on the wall clock, carrying past midnight to
following calendar days. -/
def addMinutes (t : PyDateTime) (k : Nat) : PyDateTime :=
  let tot := t.hour * 60 + t.minute + k
  let d := addDays ⟨t.year, t.month, t.day⟩ (tot / (24 * 60))
  ⟨d.year, d.month, d.day, tot % (24 * 60) / 60, tot % (24 * 60) % 60⟩

theorem addDays_add (d : PyDate) (a b : Nat) :
    addDays d (a + b) = addDays (addDays d a) b := by
  induction a generalizing d with
  | zero => simp [addDays]
  | succ a ih =>
      have h : a + 1 + b = (a + b) + 1 := by omega
      rw [h]
      show addDays (nextDay d) (a + b) = addDays (addDays (nextDay d) a) b
      exact ih (nextDay d)

/-- C6: the claimed value for position 92 is impossible: position 92 is 91
fifteen-minute steps after 01:00, i.e. 23:45 of the same day (also forced by
the claim's own "+15 minutes per position" together with 93 ↦ 00:00; 22:45
would be position 88).  The code computes 23:45. -/
theorem c6_position92_counterexample :
    position_to_timestamp 92 ⟨2025, 1, 1⟩ = ⟨2025, 1, 1, 23, 45⟩ ∧
    (⟨2025, 1, 1, 23, 45⟩ : PyDateTime) ≠ ⟨2025, 1, 1, 22, 45⟩ :=
  ⟨by decide, by decide⟩

/-- C6 (amended): position 1 maps to 01:00 wall-clock time of the given day,
each subsequent position is exactly 15 minutes later, and positions that roll
past midnight land on the following calendar day; for day `"20250101"`,
position 1 ↦ 2025-01-01 01:00, position 92 ↦ 2025-01-01 23:45 (not 22:45)
and position 93 ↦ 2025-01-02 00:00. -/
theorem c6_position_to_timestamp (p : Nat) (day : PyDate) (hp : 1 ≤ p) :
    position_to_timestamp (p + 1) day =
      addMinutes (position_to_timestamp p day) 15 ∧
    position_to_timestamp 1 ⟨2025, 1, 1⟩ = ⟨2025, 1, 1, 1, 0⟩ ∧
    position_to_timestamp 92 ⟨2025, 1, 1⟩ = ⟨2025, 1, 1, 23, 45⟩ ∧
    position_to_timestamp 93 ⟨2025, 1, 1⟩ = ⟨2025, 1, 2, 0, 0⟩ := by
  refine ⟨?_, by decide, by decide, by decide⟩
  show
    (⟨(addDays day ((60 + (p + 1 - 1) * 15) / (24 * 60))).year,
        (addDays day ((60 + (p + 1 - 1) * 15) / (24 * 60))).month,
        (addDays day ((60 + (p + 1 - 1) * 15) / (24 * 60))).day,
        (60 + (p + 1 - 1) * 15) % (24 * 60) / 60,
        (60 + (p + 1 - 1) * 15) % (24 * 60) % 60⟩ : PyDateTime) =
      addMinutes
        ⟨(addDays day ((60 + (p - 1) * 15) / (24 * 60))).year,
          (addDays day ((60 + (p - 1) * 15) / (24 * 60))).month,
          (addDays day ((60 + (p - 1) * 15) / (24 * 60))).day,
          (60 + (p - 1) * 15) % (24 * 60) / 60,
          (60 + (p - 1) * 15) % (24 * 60) % 60⟩ 15
  have hM : 60 + (p + 1 - 1) * 15 = 60 + (p - 1) * 15 + 15 := by omega
  rw [hM]
  unfold addMinutes
  dsimp only
  have htot :
      (60 + (p - 1) * 15) % (24 * 60) / 60 * 60 +
        (60 + (p - 1) * 15) % (24 * 60) % 60 + 15 =
      (60 + (p - 1) * 15) % (24 * 60) + 15 := by omega
  rw [htot]
  rcases Nat.lt_or_ge ((60 + (p - 1) * 15) % (24 * 60) + 15) 1440 with hc | hc
  · have hdiv : (60 + (p - 1) * 15 + 15) / (24 * 60) =
        (60 + (p - 1) * 15) / (24 * 60) := by omega
    have hmod : (60 + (p - 1) * 15 + 15) % (24 * 60) =
        (60 + (p - 1) * 15) % (24 * 60) + 15 := by omega
    have htd : ((60 + (p - 1) * 15) % (24 * 60) + 15) / (24 * 60) = 0 := by
      omega
    have htm : ((60 + (p - 1) * 15) % (24 * 60) + 15) % (24 * 60) =
        (60 + (p - 1) * 15) % (24 * 60) + 15 := by omega
    rw [hdiv, hmod, htd, htm]
    rfl
  · have hdiv : (60 + (p - 1) * 15 + 15) / (24 * 60) =
        (60 + (p - 1) * 15) / (24 * 60) + 1 := by omega
    have hmod : (60 + (p - 1) * 15 + 15) % (24 * 60) =
        (60 + (p - 1) * 15) % (24 * 60) + 15 - 1440 := by omega
    have htd : ((60 + (p - 1) * 15) % (24 * 60) + 15) / (24 * 60) = 1 := by
      omega
    have htm : ((60 + (p - 1) * 15) % (24 * 60) + 15) % (24 * 60) =
        (60 + (p - 1) * 15) % (24 * 60) + 15 - 1440 := by omega
    rw [hdiv, hmod, htd, htm,
      addDays_add day ((60 + (p - 1) * 15) / (24 * 60)) 1]

theorem c6_position_to_timestamp_witness :
    1 ≤ 4 ∧
    (position_to_timestamp 5 ⟨2023, 9, 15⟩ =
        addMinutes (position_to_timestamp 4 ⟨2023, 9, 15⟩) 15 ∧
      position_to_timestamp 1 ⟨2025, 1, 1⟩ = ⟨2025, 1, 1, 1, 0⟩ ∧
      position_to_timestamp 92 ⟨2025, 1, 1⟩ = ⟨2025, 1, 1, 23, 45⟩ ∧
      position_to_timestamp 93 ⟨2025, 1, 1⟩ = ⟨2025, 1, 2, 0, 0⟩) :=
  ⟨by decide, c6_position_to_timestamp 4 ⟨2023, 9, 15⟩ (by decide)⟩

/- ## Price ingestion — shallow embedding of
`src/services/electricity_prices.py` (`save_electricity_prices_to_db`) -/

/-- One parsed `Point` of a series: `int(position)` (embedded as `Nat`,
the feed's domain) and its price `price.amount`. -/
structure SPoint where
  position : Nat
  price : ℚ
  deriving DecidableEq

/-- The `while i < len(points)` scan of `save_electricity_prices_to_db`:
`lastPos` is `int(points[i-1].position)` (`none` at `i = 0`) and `lastValid`
is `last_valid_price_amount`.  Each iteration either processes `points[i]` —
appending `(position, price)` to the processed rows, advancing `i` and
updating both carries — or, on a positional gap (`position - 1 ≠
last_position`) with a valid carry price, inserts the filler point
`(position - 1, last_valid)` at index `i` and re-evaluates the same index; a
gap before any valid price is only logged and the point is processed
normally.  `fuel` bounds the number of loop iterations; `none` models a
non-terminating loop (unreachable on position-ordered input). -/
def fill_loop (fuel : Nat) (lastPos : Option Nat) (lastValid : Option ℚ) :
    List SPoint → Option (List (Nat × ℚ))
  | [] => some []
  | p :: rest =>
    match fuel with
    | 0 => none
    | fuel + 1 =>
      match lastPos with
      | some lp =>
        if p.position - 1 ≠ lp then
          match lastValid with
          | some v =>
            fill_loop fuel (some lp) (some v)
              (⟨p.position - 1, v⟩ :: p :: rest)
          | none =>
            (fill_loop fuel (some p.position) (some p.price) rest).map
              ((p.position, p.price) :: ·)
        else
          (fill_loop fuel (some p.position) (some p.price) rest).map
            ((p.position, p.price) :: ·)
      | none =>
        (fill_loop fuel (some p.position) (some p.price) rest).map
          ((p.position, p.price) :: ·)

/-- The new rows one series contributes: run the scan from `i = 0`, convert
each processed row's position to a timestamp for the series' day, and keep
the rows whose timestamp has no record in the (committed) store — the
per-point SELECT. -/
def series_new_rows (day : PyDate) (fuel : Nat) (points : List SPoint)
    (store : List (PyDateTime × ℚ)) : Option (List (PyDateTime × ℚ)) :=
  (fill_loop fuel none none points).map fun rows =>
    (rows.filter fun r =>
        decide (position_to_timestamp r.1 day ∉ store.map Prod.fst)).map
      fun r => (position_to_timestamp r.1 day, r.2)

/-- The series loop: every series' new rows are collected against the same
committed store (`new_rows_to_db` grows across series; the per-point SELECT
only sees committed rows). -/
def collect_new_rows (fuel : Nat) (store : List (PyDateTime × ℚ)) :
    List (PyDate × List SPoint) → Option (List (PyDateTime × ℚ))
  | [] => some []
  | s :: rest =>
    match series_new_rows s.1 fuel s.2 store with
    | none => none
    | some rows => (collect_new_rows fuel store rest).map (rows ++ ·)

/-- `save_electricity_prices_to_db`: loop over the document's series (each
with the day extracted from its period end), collect every series' new rows
against the same committed store, and append them in one batch
(`session.add_all` + `commit`). -/
def save_electricity_prices_to_db (fuel : Nat)
    (series : List (PyDate × List SPoint))
    (store : List (PyDateTime × ℚ)) : Option (List (PyDateTime × ℚ)) :=
  (collect_new_rows fuel store series).map (store ++ ·)

/-- Points at consecutive positions `s, s+1, …` with the given prices. -/
def mkConsec : Nat → List ℚ → List SPoint
  | _, [] => []
  | s, x :: xs => ⟨s, x⟩ :: mkConsec (s + 1) xs

/-- Rows at consecutive positions `s, s+1, …` with the given prices. -/
def mkRows : Nat → List ℚ → List (Nat × ℚ)
  | _, [] => []
  | s, x :: xs => (s, x) :: mkRows (s + 1) xs

/-- The `last_valid_price_amount` carry after processing prices `qs`,
starting from `lv`. -/
def lastD (qs : List ℚ) (lv : Option ℚ) : Option ℚ :=
  qs.foldl (fun _ x => some x) lv

theorem fill_loop_nil (fuel : Nat) (lastPos : Option Nat)
    (lastValid : Option ℚ) : fill_loop fuel lastPos lastValid [] = some [] := by
  cases fuel <;> rfl

/-- Processing one point at the expected next position. -/
theorem fill_loop_step (fuel : Nat) (lp : Nat) (lv : Option ℚ) (x : ℚ)
    (rest : List SPoint) :
    fill_loop (fuel + 1) (some lp) lv (⟨lp + 1, x⟩ :: rest) =
      (fill_loop fuel (some (lp + 1)) (some x) rest).map ((lp + 1, x) :: ·) := by
  have hpos : lp + 1 - 1 = lp := rfl
  cases lv <;> simp [fill_loop, hpos]

/-- A gap of exactly one missing position: the filler `(lp + 1, v)` is
inserted and processed, and the scan continues at the original point. -/
theorem fill_loop_gap (fuel : Nat) (lp : Nat) (v : ℚ) (q : ℚ)
    (rest : List SPoint) :
    fill_loop (fuel + 2) (some lp) (some v) (⟨lp + 2, q⟩ :: rest) =
      (fill_loop fuel (some (lp + 1)) (some v) (⟨lp + 2, q⟩ :: rest)).map
        ((lp + 1, v) :: ·) := by
  have hgap : lp + 2 - 1 = lp + 1 := rfl
  have hne : lp + 1 ≠ lp := by omega
  have h1 : fill_loop (fuel + 2) (some lp) (some v) (⟨lp + 2, q⟩ :: rest) =
      fill_loop (fuel + 1) (some lp) (some v)
        (⟨lp + 1, v⟩ :: ⟨lp + 2, q⟩ :: rest) := by
    simp [fill_loop, hgap, hne]
  rw [h1, fill_loop_step]

/-- Consecutive points are processed one-to-one, threading the carries. -/
theorem fill_loop_consec (qs : List ℚ) (s fuel : Nat) (lv : Option ℚ)
    (tail : List SPoint) :
    fill_loop (fuel + qs.length) (some s) lv (mkConsec (s + 1) qs ++ tail) =
      (fill_loop fuel (some (s + qs.length)) (lastD qs lv) tail).map
        (mkRows (s + 1) qs ++ ·) := by
  induction qs generalizing s lv fuel with
  | nil =>
      simp [mkConsec, mkRows, lastD]
  | cons x xs ih =>
      have hfuel : fuel + (x :: xs).length = (fuel + xs.length) + 1 := by
        simp [List.length_cons]; omega
      rw [hfuel]
      simp only [mkConsec, List.cons_append, fill_loop_step]
      rw [ih (s + 1) (fuel) (some x)]
      have hlen : s + 1 + xs.length = s + (x :: xs).length := by
        simp [List.length_cons]; omega
      have hlast : lastD xs (some x) = lastD (x :: xs) lv := rfl
      rw [hlen, hlast, Option.map_map]
      rfl

/-- `fill_loop_step` with the head point's position given by an equation. -/
theorem fill_loop_step2 (fuel lp : Nat) (lv : Option ℚ) (p : SPoint)
    (rest : List SPoint) (h : p.position = lp + 1) :
    fill_loop (fuel + 1) (some lp) lv (p :: rest) =
      (fill_loop fuel (some p.position) (some p.price) rest).map
        ((p.position, p.price) :: ·) := by
  have hpos : p.position - 1 = lp := by omega
  cases lv <;> simp [fill_loop, hpos]

/-- A gap step: the head point sits two positions after the carry, so the
filler `(lp + 1, v)` is inserted and immediately processed. -/
theorem fill_loop_gap2 (fuel lp : Nat) (v : ℚ) (p : SPoint)
    (rest : List SPoint) (h : p.position = lp + 2) :
    fill_loop (fuel + 2) (some lp) (some v) (p :: rest) =
      (fill_loop fuel (some (lp + 1)) (some v) (p :: rest)).map
        ((lp + 1, v) :: ·) := by
  have hne : ¬ (p.position - 1 = lp) := by omega
  have h1 : fill_loop (fuel + 2) (some lp) (some v) (p :: rest) =
      fill_loop (fuel + 1) (some lp) (some v)
        (⟨p.position - 1, v⟩ :: p :: rest) := by
    simp [fill_loop, hne]
  have hgap : p.position - 1 = lp + 1 := by omega
  rw [h1, hgap, fill_loop_step]

/-- Scanning a fully consecutive block `1, 2, …` from the start (`i = 0`,
no carries yet). -/
theorem fill_loop_consec_none (qs : List ℚ) (hne : qs ≠ []) (f g : Nat)
    (tail : List SPoint) (hf : f = g + qs.length) :
    fill_loop f none none (mkConsec 1 qs ++ tail) =
      (fill_loop g (some qs.length) (lastD qs none) tail).map
        (mkRows 1 qs ++ ·) := by
  cases qs with
  | nil => exact absurd rfl hne
  | cons x xs =>
      subst hf
      have hf2 : g + (x :: xs).length = (g + xs.length) + 1 := by
        simp [List.length_cons]; omega
      rw [hf2]
      have h1 : mkConsec 1 (x :: xs) ++ tail =
          ⟨1, x⟩ :: (mkConsec 2 xs ++ tail) := by
        norm_num [mkConsec]
      rw [h1]
      have h2 : fill_loop ((g + xs.length) + 1) none none
          (⟨1, x⟩ :: (mkConsec 2 xs ++ tail)) =
          (fill_loop (g + xs.length) (some 1) (some x)
            (mkConsec 2 xs ++ tail)).map ((1, x) :: ·) := by
        simp [fill_loop]
      rw [h2]
      have hc := fill_loop_consec xs 1 g (some x) tail
      norm_num at hc
      rw [hc, Option.map_map]
      have hlen : 1 + xs.length = (x :: xs).length := by
        simp [List.length_cons]; omega
      have hlast : lastD xs (some x) = lastD (x :: xs) none := rfl
      rw [hlen, hlast]
      have hrows : ∀ l : List (Nat × ℚ),
          ((1, x) :: ·) ∘ (mkRows 2 xs ++ ·) = (mkRows 1 (x :: xs) ++ ·) := by
        intro l
        funext ys
        norm_num [mkRows]
      rw [hrows []]

/-- After the first block, a single missing position `lp + 1` is filled and
the consecutive continuation `lp + 2, lp + 3, …` is processed verbatim. -/
theorem c5_aux (lp a b f : Nat) (v q2 : ℚ) (qs2 : List ℚ)
    (ha : a = lp + 2) (hb : b = lp + 3) (hf : f = qs2.length + 3) :
    fill_loop f (some lp) (some v) (⟨a, q2⟩ :: mkConsec b qs2) =
      some ((lp + 1, v) :: (a, q2) :: mkRows b qs2) := by
  subst ha hb hf
  rw [show qs2.length + 3 = qs2.length + 1 + 2 from by omega]
  rw [fill_loop_gap2 (qs2.length + 1) lp v ⟨lp + 2, q2⟩ _ rfl]
  rw [fill_loop_step2 qs2.length (lp + 1) (some v) ⟨lp + 2, q2⟩ _
    (show lp + 2 = lp + 1 + 1 from by omega)]
  have hc := fill_loop_consec qs2 (lp + 2) 0 (some q2) []
  simp only [Nat.zero_add, List.append_nil, fill_loop_nil,
    Option.map_some'] at hc
  rw [show lp + 3 = lp + 2 + 1 from by omega]
  show ((fill_loop qs2.length (some (lp + 2)) (some q2)
      (mkConsec (lp + 2 + 1) qs2)).map ((lp + 2, q2) :: ·)).map
        ((lp + 1, v) :: ·) =
    some ((lp + 1, v) :: (lp + 2, q2) :: mkRows (lp + 2 + 1) qs2)
  rw [hc]
  simp

theorem mkConsec_append (s : Nat) (a b : List ℚ) :
    mkConsec s (a ++ b) = mkConsec s a ++ mkConsec (s + a.length) b := by
  induction a generalizing s with
  | nil => simp [mkConsec]
  | cons x xs ih =>
      have h : s + (x :: xs).length = (s + 1) + xs.length := by
        simp [List.length_cons]; omega
      simp only [List.cons_append, mkConsec, List.append_eq, ih (s + 1), h]

theorem mkRows_append (s : Nat) (a b : List ℚ) :
    mkRows s (a ++ b) = mkRows s a ++ mkRows (s + a.length) b := by
  induction a generalizing s with
  | nil => simp [mkRows]
  | cons x xs ih =>
      have h : s + (x :: xs).length = (s + 1) + xs.length := by
        simp [List.length_cons]; omega
      simp only [List.cons_append, mkRows, List.append_eq, ih (s + 1), h]

theorem lastD_snoc (qs : List ℚ) (x : ℚ) (lv : Option ℚ) :
    lastD (qs ++ [x]) lv = some x := by
  simp [lastD, List.foldl_append]

/-- `save_electricity_prices_to_db` on a single series, unfolded. -/
theorem save_single (day : PyDate) (fuel : Nat) (pts : List SPoint)
    (store : List (PyDateTime × ℚ)) :
    save_electricity_prices_to_db fuel [(day, pts)] store =
      (fill_loop fuel none none pts).map fun rows =>
        store ++ (rows.filter fun r =>
            decide (position_to_timestamp r.1 day ∉ store.map Prod.fst)).map
          fun r => (position_to_timestamp r.1 day, r.2) := by
  unfold save_electricity_prices_to_db collect_new_rows series_new_rows
  cases hfl : fill_loop fuel none none pts <;> simp [collect_new_rows]

/-- A series whose positions run `1 … k-1` with prices `qs1 ++ [q]`
(`k = qs1.length + 2`), skip position `k`, and continue consecutively with
`q2 :: qs2` from `k + 1`, is ingested as the fully consecutive rows
`1 … k-1` with their own prices, exactly one synthesized row `(k, q)`
carrying the price of position `k - 1`, and the original rows from `k + 1`
onward; on an empty store those rows are exactly what is persisted. -/
theorem fill_loop_single_gap (qs1 : List ℚ) (q q2 : ℚ) (qs2 : List ℚ)
    (day : PyDate) :
    fill_loop (qs1.length + qs2.length + 4) none none
        (mkConsec 1 qs1 ++ ⟨qs1.length + 1, q⟩ :: ⟨qs1.length + 3, q2⟩ ::
          mkConsec (qs1.length + 4) qs2) =
      some (mkRows 1 qs1 ++ (qs1.length + 1, q) :: (qs1.length + 2, q) ::
        (qs1.length + 3, q2) :: mkRows (qs1.length + 4) qs2) ∧
    save_electricity_prices_to_db (qs1.length + qs2.length + 4)
        [(day, mkConsec 1 qs1 ++ ⟨qs1.length + 1, q⟩ :: ⟨qs1.length + 3, q2⟩ ::
          mkConsec (qs1.length + 4) qs2)] [] =
      some ((mkRows 1 qs1 ++ (qs1.length + 1, q) :: (qs1.length + 2, q) ::
          (qs1.length + 3, q2) :: mkRows (qs1.length + 4) qs2).map
        fun r => (position_to_timestamp r.1 day, r.2)) := by
  have hfill : fill_loop (qs1.length + qs2.length + 4) none none
      (mkConsec 1 qs1 ++ ⟨qs1.length + 1, q⟩ :: ⟨qs1.length + 3, q2⟩ ::
        mkConsec (qs1.length + 4) qs2) =
      some (mkRows 1 qs1 ++ (qs1.length + 1, q) :: (qs1.length + 2, q) ::
        (qs1.length + 3, q2) :: mkRows (qs1.length + 4) qs2) := by
    have hpts : mkConsec 1 qs1 ++ ⟨qs1.length + 1, q⟩ ::
        ⟨qs1.length + 3, q2⟩ :: mkConsec (qs1.length + 4) qs2 =
        mkConsec 1 (qs1 ++ [q]) ++
          (⟨qs1.length + 3, q2⟩ :: mkConsec (qs1.length + 4) qs2) := by
      rw [mkConsec_append]
      simp [mkConsec, Nat.add_comm]
    rw [hpts]
    rw [fill_loop_consec_none (qs1 ++ [q]) (by simp)
      (qs1.length + qs2.length + 4) (qs2.length + 3) _ (by simp; omega)]
    rw [lastD_snoc]
    simp only [List.length_append, List.length_cons, List.length_nil,
      Nat.zero_add]
    rw [c5_aux (qs1.length + 1) (qs1.length + 3) (qs1.length + 4)
      (qs2.length + 3) q q2 qs2 (by omega) (by omega) rfl]
    simp only [Option.map_some']
    have hrows1 : mkRows 1 (qs1 ++ [q]) =
        mkRows 1 qs1 ++ [(qs1.length + 1, q)] := by
      rw [mkRows_append]
      simp [mkRows, Nat.add_comm]
    rw [hrows1]
    simp [Nat.add_assoc]
  refine ⟨hfill, ?_⟩
  rw [save_single, hfill]
  simp

/-- On strictly increasing input positions the scan emits strictly
increasing positions, all above the carried `last_position`. -/
theorem fill_loop_chain (fuel : Nat) :
    ∀ (lp : Nat) (lv : Option ℚ) (pts : List SPoint)
      (rows : List (Nat × ℚ)),
      fill_loop fuel (some lp) lv pts = some rows →
      List.Chain' (· < ·) (lp :: pts.map SPoint.position) →
      List.Chain' (· < ·) (lp :: rows.map Prod.fst) := by
  induction fuel with
  | zero =>
      intro lp lv pts rows h hchain
      cases pts with
      | nil =>
          rw [fill_loop_nil] at h
          injection h with h
          subst h
          simp
      | cons p rest => simp [fill_loop] at h
  | succ fuel ih =>
      intro lp lv pts rows h hchain
      cases pts with
      | nil =>
          rw [fill_loop_nil] at h
          injection h with h
          subst h
          simp
      | cons p rest =>
          rw [List.map_cons, List.chain'_cons] at hchain
          obtain ⟨hlt, hchain'⟩ := hchain
          by_cases hgap : p.position - 1 = lp
          · have h' : (fill_loop fuel (some p.position) (some p.price)
                rest).map ((p.position, p.price) :: ·) = some rows := by
              simpa [fill_loop, hgap] using h
            obtain ⟨rows0, hrows0, hr⟩ := Option.map_eq_some'.mp h'
            subst hr
            rw [List.map_cons, List.chain'_cons]
            exact ⟨hlt, ih p.position (some p.price) rest rows0 hrows0 hchain'⟩
          · cases lv with
            | none =>
                have h' : (fill_loop fuel (some p.position) (some p.price)
                    rest).map ((p.position, p.price) :: ·) = some rows := by
                  simpa [fill_loop, hgap] using h
                obtain ⟨rows0, hrows0, hr⟩ := Option.map_eq_some'.mp h'
                subst hr
                rw [List.map_cons, List.chain'_cons]
                exact ⟨hlt,
                  ih p.position (some p.price) rest rows0 hrows0 hchain'⟩
            | some v =>
                have h' : fill_loop fuel (some lp) (some v)
                    (⟨p.position - 1, v⟩ :: p :: rest) = some rows := by
                  simpa [fill_loop, hgap] using h
                have hchain2 : List.Chain' (· < ·)
                    (lp :: (⟨p.position - 1, v⟩ :: p :: rest).map
                      SPoint.position) := by
                  simp only [List.map_cons, List.chain'_cons]
                  exact ⟨by omega, by omega, hchain'⟩
                exact ih lp (some v) _ rows h' hchain2

/-- Every emitted position is bounded by a bound on the input positions. -/
theorem fill_loop_ub (fuel : Nat) :
    ∀ (lastPos : Option Nat) (lv : Option ℚ) (pts : List SPoint)
      (rows : List (Nat × ℚ)) (B : Nat),
      fill_loop fuel lastPos lv pts = some rows →
      (∀ p ∈ pts, p.position ≤ B) → ∀ r ∈ rows, r.1 ≤ B := by
  induction fuel with
  | zero =>
      intro lastPos lv pts rows B h hB r hr
      cases pts with
      | nil =>
          rw [fill_loop_nil] at h
          injection h with h
          subst h
          simp at hr
      | cons p rest => simp [fill_loop] at h
  | succ fuel ih =>
      intro lastPos lv pts rows B h hB r hr
      cases pts with
      | nil =>
          rw [fill_loop_nil] at h
          injection h with h
          subst h
          simp at hr
      | cons p rest =>
          have hpB : p.position ≤ B := hB p (List.mem_cons_self p rest)
          have hrest : ∀ x ∈ rest, x.position ≤ B :=
            fun x hx => hB x (List.mem_cons_of_mem p hx)
          cases lastPos with
          | none =>
              have h' : (fill_loop fuel (some p.position) (some p.price)
                  rest).map ((p.position, p.price) :: ·) = some rows := by
                simpa [fill_loop] using h
              obtain ⟨rows0, hrows0, hrr⟩ := Option.map_eq_some'.mp h'
              subst hrr
              rcases List.mem_cons.mp hr with hr0 | hr0
              · rw [hr0]; exact hpB
              · exact ih (some p.position) (some p.price) rest rows0 B
                  hrows0 hrest r hr0
          | some lp =>
              by_cases hgap : p.position - 1 = lp
              · have h' : (fill_loop fuel (some p.position) (some p.price)
                    rest).map ((p.position, p.price) :: ·) = some rows := by
                  simpa [fill_loop, hgap] using h
                obtain ⟨rows0, hrows0, hrr⟩ := Option.map_eq_some'.mp h'
                subst hrr
                rcases List.mem_cons.mp hr with hr0 | hr0
                · rw [hr0]; exact hpB
                · exact ih (some p.position) (some p.price) rest rows0 B
                    hrows0 hrest r hr0
              · cases lv with
                | none =>
                    have h' : (fill_loop fuel (some p.position) (some p.price)
                        rest).map ((p.position, p.price) :: ·) = some rows := by
                      simpa [fill_loop, hgap] using h
                    obtain ⟨rows0, hrows0, hrr⟩ := Option.map_eq_some'.mp h'
                    subst hrr
                    rcases List.mem_cons.mp hr with hr0 | hr0
                    · rw [hr0]; exact hpB
                    · exact ih (some p.position) (some p.price) rest rows0 B
                        hrows0 hrest r hr0
                | some v =>
                    have h' : fill_loop fuel (some lp) (some v)
                        (⟨p.position - 1, v⟩ :: p :: rest) = some rows := by
                      simpa [fill_loop, hgap] using h
                    have hall : ∀ x ∈ (⟨p.position - 1, v⟩ : SPoint) :: p ::
                        rest, x.position ≤ B := by
                      intro x hx
                      rcases List.mem_cons.mp hx with hx0 | hx0
                      · rw [hx0]; show p.position - 1 ≤ B; omega
                      · rcases List.mem_cons.mp hx0 with hx1 | hx1
                        · rw [hx1]; exact hpB
                        · exact hrest x hx1
                    exact ih (some lp) (some v) _ rows B h' hall r hr

/-- The scan from the start: on strictly increasing input with positions at
least 1, the emitted positions are strictly increasing and at least 1. -/
theorem fill_loop_none_props (fuel : Nat) (pts : List SPoint)
    (rows : List (Nat × ℚ))
    (h : fill_loop fuel none none pts = some rows)
    (hchain : List.Chain' (· < ·) (pts.map SPoint.position))
    (hlb : ∀ p ∈ pts, 1 ≤ p.position) :
    List.Chain' (· < ·) (rows.map Prod.fst) ∧ ∀ r ∈ rows, 1 ≤ r.1 := by
  cases pts with
  | nil =>
      rw [fill_loop_nil] at h
      injection h with h
      subst h
      simp
  | cons p rest =>
      cases fuel with
      | zero => simp [fill_loop] at h
      | succ fuel =>
          have h' : (fill_loop fuel (some p.position) (some p.price)
              rest).map ((p.position, p.price) :: ·) = some rows := by
            simpa [fill_loop] using h
          obtain ⟨rows0, hrows0, hrr⟩ := Option.map_eq_some'.mp h'
          subst hrr
          rw [List.map_cons] at hchain
          have hchain2 := fill_loop_chain fuel p.position (some p.price)
            rest rows0 hrows0 hchain
          constructor
          · rw [List.map_cons]
            exact hchain2
          · have hpair : List.Pairwise (· < ·)
                (p.position :: rows0.map Prod.fst) :=
              List.chain'_iff_pairwise.mp hchain2
            intro r hr
            rcases List.mem_cons.mp hr with hr0 | hr0
            · rw [hr0]
              exact hlb p (List.mem_cons_self p rest)
            · have hpos : p.position < r.1 := by
                have := List.rel_of_pairwise_cons hpair
                  (List.mem_map_of_mem Prod.fst hr0)
                exact this
              have hp1 : 1 ≤ p.position := hlb p (List.mem_cons_self p rest)
              omega

theorem nextDay_fields_ne (d : PyDate) :
    ¬ ((nextDay d).year = d.year ∧ (nextDay d).month = d.month ∧
        (nextDay d).day = d.day) := by
  unfold nextDay
  split
  · intro hc
    simp at hc
  · split
    · intro hc
      simp at hc
    · intro hc
      simp at hc

/-- `position_to_timestamp` is injective on the feed's position range 1..96
(for a fixed day): positions 1..92 stay on the given day with distinct
minutes, positions 93..96 land on the following day. -/
theorem pos_ts_inj (day : PyDate) (p q : Nat) (hp1 : 1 ≤ p) (hp2 : p ≤ 96)
    (hq1 : 1 ≤ q) (hq2 : q ≤ 96)
    (h : position_to_timestamp p day = position_to_timestamp q day) :
    p = q := by
  unfold position_to_timestamp at h
  dsimp only at h
  rw [PyDateTime.mk.injEq] at h
  obtain ⟨hy, hm, hd, hh, hmin⟩ := h
  rcases le_or_lt p 92 with hp92 | hp92 <;>
    rcases le_or_lt q 92 with hq92 | hq92
  · -- both on the given day: the minutes determine the position
    omega
  · -- p on the given day, q on the following day: the dates differ
    have hdp : (60 + (p - 1) * 15) / (24 * 60) = 0 := by omega
    have hdq : (60 + (q - 1) * 15) / (24 * 60) = 1 := by omega
    rw [hdp, hdq] at hy hm hd
    simp only [addDays] at hy hm hd
    exact absurd ⟨hy.symm, hm.symm, hd.symm⟩ (nextDay_fields_ne day)
  · have hdp : (60 + (p - 1) * 15) / (24 * 60) = 1 := by omega
    have hdq : (60 + (q - 1) * 15) / (24 * 60) = 0 := by omega
    rw [hdp, hdq] at hy hm hd
    simp only [addDays] at hy hm hd
    exact absurd ⟨hy, hm, hd⟩ (nextDay_fields_ne day)
  · -- both on the following day
    omega

/-- C7: saving is insert-if-absent per timestamp.  For a position-ordered
series in the feed's range, saving preserves "at most one stored row per
timestamp", and repeating the same save against the resulting store is a
no-op (not an error): the second call stores nothing new and returns the
same store. -/
theorem c7_store_unique_idempotent (day : PyDate) (fuel : Nat)
    (pts : List SPoint) (store st' : List (PyDateTime × ℚ))
    (hsave : save_electricity_prices_to_db fuel [(day, pts)] store = some st')
    (hchain : List.Chain' (· < ·) (pts.map SPoint.position))
    (hrange : ∀ p ∈ pts, 1 ≤ p.position ∧ p.position ≤ 96)
    (hstore : (store.map Prod.fst).Nodup) :
    save_electricity_prices_to_db fuel [(day, pts)] st' = some st' ∧
    (st'.map Prod.fst).Nodup := by
  rw [save_single] at hsave
  cases hfl : fill_loop fuel none none pts with
  | none => rw [hfl] at hsave; simp at hsave
  | some rows =>
      rw [hfl, Option.map_some'] at hsave
      injection hsave with hsave
      have hmem : ∀ r ∈ rows,
          position_to_timestamp r.1 day ∈ st'.map Prod.fst := by
        intro r hr
        rw [← hsave, List.map_append, List.mem_append]
        by_cases hin : position_to_timestamp r.1 day ∈ store.map Prod.fst
        · exact Or.inl hin
        · refine Or.inr ?_
          have hrf : r ∈ rows.filter fun r =>
              decide (position_to_timestamp r.1 day ∉ store.map Prod.fst) := by
            rw [List.mem_filter]
            exact ⟨hr, by simpa using hin⟩
          have hx := List.mem_map_of_mem
            (fun r => (position_to_timestamp r.1 day, r.2)) hrf
          exact List.mem_map_of_mem Prod.fst hx
      have hfilter_nil : (rows.filter fun r =>
          decide (position_to_timestamp r.1 day ∉ st'.map Prod.fst)) = [] := by
        rw [List.filter_eq_nil_iff]
        intro r hr
        simpa using hmem r hr
      constructor
      · rw [save_single, hfl, Option.map_some', hfilter_nil]
        simp
      · obtain ⟨hchainR, hlbR⟩ := fill_loop_none_props fuel pts rows hfl
          hchain (fun p hp => (hrange p hp).1)
        have hubR := fill_loop_ub fuel none none pts rows 96 hfl
          (fun p hp => (hrange p hp).2)
        have hpairR : List.Pairwise (· < ·) (rows.map Prod.fst) :=
          List.chain'_iff_pairwise.mp hchainR
        have hsub : ((rows.filter fun r =>
            decide (position_to_timestamp r.1 day ∉ store.map
              Prod.fst)).map Prod.fst).Sublist (rows.map Prod.fst) :=
          (List.filter_sublist rows).map Prod.fst
        have hpairF : List.Pairwise (· < ·)
            ((rows.filter fun r =>
              decide (position_to_timestamp r.1 day ∉ store.map
                Prod.fst)).map Prod.fst) :=
          List.Pairwise.sublist hsub hpairR
        have hnodupF : ((rows.filter fun r =>
            decide (position_to_timestamp r.1 day ∉ store.map
              Prod.fst)).map Prod.fst).Nodup :=
          hpairF.imp (fun h => Nat.ne_of_lt h)
        have hbounds : ∀ x ∈ (rows.filter fun r =>
            decide (position_to_timestamp r.1 day ∉ store.map
              Prod.fst)).map Prod.fst, 1 ≤ x ∧ x ≤ 96 := by
          intro x hx
          obtain ⟨r, hrF, hre⟩ := List.mem_map.mp hx
          have hrr := List.mem_of_mem_filter hrF
          subst hre
          exact ⟨hlbR r hrr, hubR r hrr⟩
        have hnodupNew : (((rows.filter fun r =>
            decide (position_to_timestamp r.1 day ∉ store.map
              Prod.fst)).map
              fun r => (position_to_timestamp r.1 day, r.2)).map
            Prod.fst).Nodup := by
          have heq : ((rows.filter fun r =>
              decide (position_to_timestamp r.1 day ∉ store.map
                Prod.fst)).map
                fun r => (position_to_timestamp r.1 day, r.2)).map Prod.fst =
              ((rows.filter fun r =>
                decide (position_to_timestamp r.1 day ∉ store.map
                  Prod.fst)).map Prod.fst).map
                fun pos => position_to_timestamp pos day := by
            simp [List.map_map]
          rw [heq]
          refine List.Nodup.map_on ?_ hnodupF
          intro x hx y hy hxy
          obtain ⟨hx1, hx2⟩ := hbounds x hx
          obtain ⟨hy1, hy2⟩ := hbounds y hy
          exact pos_ts_inj day x y hx1 hx2 hy1 hy2 hxy
        rw [← hsave, List.map_append, List.nodup_append]
        refine ⟨hstore, hnodupNew, ?_⟩
        intro a ha hb
        obtain ⟨rr, hrr, hre⟩ := List.mem_map.mp hb
        obtain ⟨r, hrF, hre2⟩ := List.mem_map.mp hrr
        have hpred := (List.mem_filter.mp hrF).2
        simp only [decide_eq_true_eq] at hpred
        apply hpred
        rw [← hre2] at hre
        simp only [← hre] at ha
        exact ha

theorem c7_store_unique_idempotent_witness :
    (save_electricity_prices_to_db 3 [(⟨2025, 1, 1⟩, [⟨1, 10⟩, ⟨2, 11⟩])] [] =
        some [(⟨2025, 1, 1, 1, 0⟩, 10), (⟨2025, 1, 1, 1, 15⟩, 11)] ∧
      List.Chain' (· < ·)
        (([⟨1, 10⟩, ⟨2, 11⟩] : List SPoint).map SPoint.position) ∧
      (∀ p ∈ ([⟨1, 10⟩, ⟨2, 11⟩] : List SPoint),
        1 ≤ p.position ∧ p.position ≤ 96) ∧
      ((([] : List (PyDateTime × ℚ)).map Prod.fst).Nodup)) ∧
    (save_electricity_prices_to_db 3 [(⟨2025, 1, 1⟩, [⟨1, 10⟩, ⟨2, 11⟩])]
        [(⟨2025, 1, 1, 1, 0⟩, 10), (⟨2025, 1, 1, 1, 15⟩, 11)] =
        some [(⟨2025, 1, 1, 1, 0⟩, 10), (⟨2025, 1, 1, 1, 15⟩, 11)] ∧
      (([(⟨2025, 1, 1, 1, 0⟩, 10), (⟨2025, 1, 1, 1, 15⟩, 11)] :
          List (PyDateTime × ℚ)).map Prod.fst).Nodup) :=
  ⟨⟨by decide, by simp [List.chain'_cons], by decide, by decide⟩,
    c7_store_unique_idempotent ⟨2025, 1, 1⟩ 3 [⟨1, 10⟩, ⟨2, 11⟩] []
      [(⟨2025, 1, 1, 1, 0⟩, 10), (⟨2025, 1, 1, 1, 15⟩, 11)]
      (by decide) (by simp [List.chain'_cons]) (by decide) (by decide)⟩

/-- One iteration of the `while i < len(points)` loop body as a step on the
scan state: the `last_position` / `last_valid_price_amount` carries and the
points remaining from index `i`.  `none` means the loop exits
(`i = len(points)`); otherwise the result holds the updated carries, the
updated remaining points, and the rows appended during that iteration.  On a
positional gap with a valid carry the code executes
`points.insert(i, Point(position=str(position - 1), price.amount=last_valid))`
followed by `continue`: the filler sits at the current point's position minus
one, nothing is emitted, and the carries are unchanged. -/
def scan_step (lastPos : Option Nat) (lastValid : Option ℚ) :
    List SPoint →
      Option (Option Nat × Option ℚ × List SPoint × List (Nat × ℚ))
  | [] => none
  | p :: rest =>
    match lastPos with
    | some lp =>
      if p.position - 1 ≠ lp then
        match lastValid with
        | some v =>
          some (some lp, some v, ⟨p.position - 1, v⟩ :: p :: rest, [])
        | none =>
          some (some p.position, some p.price, rest,
            [(p.position, p.price)])
      else
        some (some p.position, some p.price, rest, [(p.position, p.price)])
    | none =>
      some (some p.position, some p.price, rest, [(p.position, p.price)])

/-- Follows the words of claim C5's gap mechanism: the synthesized filler
point is at `previous_position + 1` (instead of the code's
`position - 1`). -/
def scan_step_claimC5 (lastPos : Option Nat) (lastValid : Option ℚ) :
    List SPoint →
      Option (Option Nat × Option ℚ × List SPoint × List (Nat × ℚ))
  | [] => none
  | p :: rest =>
    match lastPos with
    | some lp =>
      if p.position - 1 ≠ lp then
        match lastValid with
        | some v =>
          some (some lp, some v, ⟨lp + 1, v⟩ :: p :: rest, [])
        | none =>
          some (some p.position, some p.price, rest,
            [(p.position, p.price)])
      else
        some (some p.position, some p.price, rest, [(p.position, p.price)])
    | none =>
      some (some p.position, some p.price, rest, [(p.position, p.price)])

/-- `fill_loop` runs the loop `scan_step` describes: one unit of fuel per
iteration, with the emitted rows collected in order. -/
theorem fill_loop_scan_step (fuel : Nat) (lastPos : Option Nat)
    (lastValid : Option ℚ) (pts : List SPoint) :
    fill_loop (fuel + 1) lastPos lastValid pts =
      match scan_step lastPos lastValid pts with
      | none => some []
      | some (lp, lv, pts', out) =>
        (fill_loop fuel lp lv pts').map (out ++ ·) := by
  cases pts with
  | nil => simp [scan_step, fill_loop_nil]
  | cons p rest =>
      cases lastPos with
      | none => simp [scan_step, fill_loop]
      | some lp =>
          by_cases hgap : p.position - 1 = lp
          · simp [scan_step, fill_loop, hgap]
          · cases lastValid with
            | none => simp [scan_step, fill_loop, hgap]
            | some v => simp [scan_step, fill_loop, hgap]

/-- Rows at positions `s, s+1, …, s+w-1`, all carrying price `v`: the net
content synthesized for a gap of `w` missing slots. -/
def gapRows : Nat → Nat → ℚ → List (Nat × ℚ)
  | _, 0, _ => []
  | s, w + 1, v => (s, v) :: gapRows (s + 1) w v

theorem gapRows_snoc (s w : Nat) (v : ℚ) :
    gapRows s (w + 1) v = gapRows s w v ++ [(s + w, v)] := by
  induction w generalizing s with
  | zero => simp [gapRows]
  | succ w ih =>
      rw [show gapRows s (w + 1 + 1) v = (s, v) :: gapRows (s + 1) (w + 1) v
        from rfl]
      rw [ih (s + 1)]
      have h : s + 1 + w = s + (w + 1) := by omega
      rw [h]
      rfl

/-- A gap of `w` missing slots before the head point is closed one filler at
a time (each inserted at the head's position minus one and re-evaluated),
emitting the rows `lp+1 … lp+w`, all with the carried price, before the head
is processed. -/
theorem fill_loop_multi_gap (w : Nat) :
    ∀ (fuel lp a : Nat) (v q2 : ℚ) (rest : List SPoint),
      a = lp + 1 + w →
      fill_loop (fuel + 2 * w) (some lp) (some v) (⟨a, q2⟩ :: rest) =
        (fill_loop fuel (some (lp + w)) (some v) (⟨a, q2⟩ :: rest)).map
          (gapRows (lp + 1) w v ++ ·) := by
  induction w with
  | zero =>
      intro fuel lp a v q2 rest ha
      have h0 : fuel + 2 * 0 = fuel := by omega
      rw [h0]
      have hid : (fill_loop fuel (some (lp + 0)) (some v)
          (⟨a, q2⟩ :: rest)).map (gapRows (lp + 1) 0 v ++ ·) =
          fill_loop fuel (some lp) (some v) (⟨a, q2⟩ :: rest) := by
        simp [gapRows]
      rw [hid]
  | succ w ih =>
      intro fuel lp a v q2 rest ha
      have hgap : ¬ ((⟨a, q2⟩ : SPoint).position - 1 = lp) := by
        show ¬ (a - 1 = lp); omega
      have hstep1 : fill_loop (fuel + 2 * (w + 1)) (some lp) (some v)
          (⟨a, q2⟩ :: rest) =
          fill_loop (fuel + 1 + 2 * w) (some lp) (some v)
            (⟨a - 1, v⟩ :: ⟨a, q2⟩ :: rest) := by
        have hf : fuel + 2 * (w + 1) = (fuel + 1 + 2 * w) + 1 := by omega
        rw [hf]
        simp [fill_loop, hgap]
      rw [hstep1]
      rw [ih (fuel + 1) lp (a - 1) v v (⟨a, q2⟩ :: rest) (by omega)]
      rw [fill_loop_step2 fuel (lp + w) (some v) ⟨a - 1, v⟩
        (⟨a, q2⟩ :: rest) (by show a - 1 = lp + w + 1; omega)]
      rw [Option.map_map]
      have hpos : (⟨a - 1, v⟩ : SPoint).position = a - 1 := rfl
      have hprice : (⟨a - 1, v⟩ : SPoint).price = v := rfl
      rw [hpos, hprice]
      have harg : a - 1 = lp + 1 + w := by omega
      rw [harg]
      rw [show lp + (w + 1) = lp + 1 + w from by omega]
      have hfun : (gapRows (lp + 1) w v ++ ·) ∘ ((lp + 1 + w, v) :: ·) =
          (gapRows (lp + 1) (w + 1) v ++ ·) := by
        funext l
        rw [gapRows_snoc]
        simp
      rw [hfun]

/-- End-to-end with a gap of `w + 1` missing slots: positions `1 … k-1`
(prices `qs1 ++ [q]`, `k = qs1.length + 2`), nothing until `k + w + 1`, then
consecutive `q2 :: qs2`.  The output inserts the synthesized rows
`k … k+w`, every one carrying the price of position `k - 1`. -/
theorem fill_loop_wide_gap (qs1 : List ℚ) (q q2 : ℚ) (qs2 : List ℚ)
    (w : Nat) :
    fill_loop (qs1.length + qs2.length + 2 * (w + 1) + 2) none none
        (mkConsec 1 qs1 ++ ⟨qs1.length + 1, q⟩ ::
          ⟨qs1.length + 2 + (w + 1), q2⟩ ::
          mkConsec (qs1.length + 3 + (w + 1)) qs2) =
      some (mkRows 1 qs1 ++ (qs1.length + 1, q) ::
        (gapRows (qs1.length + 2) (w + 1) q ++
          (qs1.length + 2 + (w + 1), q2) ::
          mkRows (qs1.length + 3 + (w + 1)) qs2)) := by
  have hpts : mkConsec 1 qs1 ++ ⟨qs1.length + 1, q⟩ ::
      ⟨qs1.length + 2 + (w + 1), q2⟩ ::
        mkConsec (qs1.length + 3 + (w + 1)) qs2 =
      mkConsec 1 (qs1 ++ [q]) ++
        (⟨qs1.length + 2 + (w + 1), q2⟩ ::
          mkConsec (qs1.length + 3 + (w + 1)) qs2) := by
    rw [mkConsec_append]
    simp [mkConsec, Nat.add_comm]
  rw [hpts]
  rw [fill_loop_consec_none (qs1 ++ [q]) (by simp)
    (qs1.length + qs2.length + 2 * (w + 1) + 2)
    (qs2.length + 2 * (w + 1) + 1) _ (by simp; omega)]
  rw [lastD_snoc]
  simp only [List.length_append, List.length_cons, List.length_nil,
    Nat.zero_add]
  rw [show qs2.length + 2 * (w + 1) + 1 = qs2.length + 1 + 2 * (w + 1)
    from by omega]
  rw [fill_loop_multi_gap (w + 1) (qs2.length + 1) (qs1.length + 1)
    (qs1.length + 2 + (w + 1)) q q2
    (mkConsec (qs1.length + 3 + (w + 1)) qs2) (by omega)]
  rw [fill_loop_step2 qs2.length (qs1.length + 1 + (w + 1)) (some q)
    ⟨qs1.length + 2 + (w + 1), q2⟩
    (mkConsec (qs1.length + 3 + (w + 1)) qs2)
    (by show qs1.length + 2 + (w + 1) = qs1.length + 1 + (w + 1) + 1
        omega)]
  have hpos : (⟨qs1.length + 2 + (w + 1), q2⟩ : SPoint).position =
      qs1.length + 2 + (w + 1) := rfl
  have hprice : (⟨qs1.length + 2 + (w + 1), q2⟩ : SPoint).price = q2 := rfl
  rw [hpos, hprice]
  have hc := fill_loop_consec qs2 (qs1.length + 2 + (w + 1)) 0 (some q2) []
  simp only [Nat.zero_add, List.append_nil, fill_loop_nil,
    Option.map_some'] at hc
  rw [show qs1.length + 3 + (w + 1) = qs1.length + 2 + (w + 1) + 1
    from by omega]
  rw [hc]
  simp only [Option.map_some']
  have hrows1 : mkRows 1 (qs1 ++ [q]) =
      mkRows 1 qs1 ++ [(qs1.length + 1, q)] := by
    rw [mkRows_append]
    simp [mkRows, Nat.add_comm]
  rw [hrows1]
  simp [Nat.add_assoc]

/-- C5: for a gap wider than one missing slot the claimed mechanism is wrong
about the code.  At the scan state `last_position = 1`, `last_valid = 5`,
next point `(4, 7)` (two missing slots), the code's iteration inserts the
filler at `position - 1 = 3`, while the claim's words put it at
`previous_position + 1 = 2`; the two successor sequences differ.  (The two
mechanisms only coincide for single-slot gaps.) -/
theorem c5_filler_position_counterexample :
    scan_step (some 1) (some 5) [⟨4, 7⟩] =
      some (some 1, some 5, [⟨3, 5⟩, ⟨4, 7⟩], []) ∧
    scan_step_claimC5 (some 1) (some 5) [⟨4, 7⟩] =
      some (some 1, some 5, [⟨2, 5⟩, ⟨4, 7⟩], []) ∧
    ([⟨3, 5⟩, ⟨4, 7⟩] : List SPoint) ≠ [⟨2, 5⟩, ⟨4, 7⟩] :=
  ⟨rfl, rfl, by decide⟩

/-- C5 (amended): the gap-filling algorithm.  (1) Whenever the next point's
position is not one more than the previously processed position and a valid
price has been seen, a filler point at the next point's `position - 1`
(not `previous_position + 1`) carrying the last valid price is inserted at
the current index and the scan re-evaluates from it, so a gap of several
missing slots is filled one step at a time, top down; for a single-slot gap
the filler position coincides with `previous_position + 1`.  (2) The net
effect for a gap of any width `w + 1` after position `k - 1` is that rows at
every missing position `k … k + w` are synthesized, each carrying the price
of position `k - 1`, with the series before and after reproduced verbatim.
(3) In particular a series with exactly one gap at position `k` (`k > 1`)
and a valid price at `k - 1` yields exactly one synthesized record at `k`
carrying the price of `k - 1`, with processing continuing correctly from
`k + 1` onward, and (4) on an empty store exactly those rows are
persisted. -/
theorem c5_gap_filling_amended (fuel lp : Nat) (v q q2 : ℚ) (p : SPoint)
    (rest : List SPoint) (w : Nat) (qs1 qs2 : List ℚ) (day : PyDate) :
    (p.position - 1 ≠ lp →
      scan_step (some lp) (some v) (p :: rest) =
        some (some lp, some v, ⟨p.position - 1, v⟩ :: p :: rest, []) ∧
      fill_loop (fuel + 1) (some lp) (some v) (p :: rest) =
        fill_loop fuel (some lp) (some v)
          (⟨p.position - 1, v⟩ :: p :: rest)) ∧
    (fill_loop (qs1.length + qs2.length + 2 * (w + 1) + 2) none none
        (mkConsec 1 qs1 ++ ⟨qs1.length + 1, q⟩ ::
          ⟨qs1.length + 2 + (w + 1), q2⟩ ::
          mkConsec (qs1.length + 3 + (w + 1)) qs2) =
      some (mkRows 1 qs1 ++ (qs1.length + 1, q) ::
        (gapRows (qs1.length + 2) (w + 1) q ++
          (qs1.length + 2 + (w + 1), q2) ::
          mkRows (qs1.length + 3 + (w + 1)) qs2))) ∧
    (fill_loop (qs1.length + qs2.length + 4) none none
        (mkConsec 1 qs1 ++ ⟨qs1.length + 1, q⟩ :: ⟨qs1.length + 3, q2⟩ ::
          mkConsec (qs1.length + 4) qs2) =
      some (mkRows 1 qs1 ++ (qs1.length + 1, q) :: (qs1.length + 2, q) ::
        (qs1.length + 3, q2) :: mkRows (qs1.length + 4) qs2)) ∧
    (save_electricity_prices_to_db (qs1.length + qs2.length + 4)
        [(day, mkConsec 1 qs1 ++ ⟨qs1.length + 1, q⟩ ::
          ⟨qs1.length + 3, q2⟩ :: mkConsec (qs1.length + 4) qs2)] [] =
      some ((mkRows 1 qs1 ++ (qs1.length + 1, q) :: (qs1.length + 2, q) ::
          (qs1.length + 3, q2) :: mkRows (qs1.length + 4) qs2).map
        fun r => (position_to_timestamp r.1 day, r.2))) := by
  refine ⟨fun hgap => ⟨by simp [scan_step, hgap], by simp [fill_loop, hgap]⟩,
    fill_loop_wide_gap qs1 q q2 qs2 w,
    (fill_loop_single_gap qs1 q q2 qs2 day).1,
    (fill_loop_single_gap qs1 q q2 qs2 day).2⟩

theorem c5_gap_filling_amended_witness :
    ((⟨4, 7⟩ : SPoint).position - 1 ≠ 1) ∧
    ((scan_step (some 1) (some 5) [⟨4, 7⟩] =
        some (some 1, some 5,
          [⟨(⟨4, 7⟩ : SPoint).position - 1, 5⟩, ⟨4, 7⟩], []) ∧
      fill_loop (0 + 1) (some 1) (some 5) [⟨4, 7⟩] =
        fill_loop 0 (some 1) (some 5)
          [⟨(⟨4, 7⟩ : SPoint).position - 1, 5⟩, ⟨4, 7⟩]) ∧
      (fill_loop (([] : List ℚ).length + ([10] : List ℚ).length +
          2 * (1 + 1) + 2) none none
          (mkConsec 1 [] ++ ⟨([] : List ℚ).length + 1, 20⟩ ::
            ⟨([] : List ℚ).length + 2 + (1 + 1), 8⟩ ::
            mkConsec (([] : List ℚ).length + 3 + (1 + 1)) [10]) =
        some (mkRows 1 [] ++ (([] : List ℚ).length + 1, 20) ::
          (gapRows (([] : List ℚ).length + 2) (1 + 1) 20 ++
            (([] : List ℚ).length + 2 + (1 + 1), 8) ::
            mkRows (([] : List ℚ).length + 3 + (1 + 1)) [10]))) ∧
      (fill_loop (([] : List ℚ).length + ([10] : List ℚ).length + 4)
          none none
          (mkConsec 1 [] ++ ⟨([] : List ℚ).length + 1, 20⟩ ::
            ⟨([] : List ℚ).length + 3, 8⟩ ::
            mkConsec (([] : List ℚ).length + 4) [10]) =
        some (mkRows 1 [] ++ (([] : List ℚ).length + 1, 20) ::
          (([] : List ℚ).length + 2, 20) :: (([] : List ℚ).length + 3, 8) ::
          mkRows (([] : List ℚ).length + 4) [10])) ∧
      (save_electricity_prices_to_db
          (([] : List ℚ).length + ([10] : List ℚ).length + 4)
          [(⟨2025, 1, 1⟩, mkConsec 1 [] ++ ⟨([] : List ℚ).length + 1, 20⟩ ::
            ⟨([] : List ℚ).length + 3, 8⟩ ::
            mkConsec (([] : List ℚ).length + 4) [10])] [] =
        some ((mkRows 1 [] ++ (([] : List ℚ).length + 1, 20) ::
            (([] : List ℚ).length + 2, 20) ::
            (([] : List ℚ).length + 3, 8) ::
            mkRows (([] : List ℚ).length + 4) [10]).map
          fun r => (position_to_timestamp r.1 ⟨2025, 1, 1⟩, r.2)))) :=
  ⟨by decide,
    (c5_gap_filling_amended 0 1 5 20 8 ⟨4, 7⟩ [] 1 [] [10] ⟨2025, 1, 1⟩).1
      (by decide),
    (c5_gap_filling_amended 0 1 5 20 8 ⟨4, 7⟩ [] 1 [] [10] ⟨2025, 1, 1⟩).2.1,
    (c5_gap_filling_amended 0 1 5 20 8 ⟨4, 7⟩ [] 1 [] [10]
      ⟨2025, 1, 1⟩).2.2.1,
    (c5_gap_filling_amended 0 1 5 20 8 ⟨4, 7⟩ [] 1 [] [10]
      ⟨2025, 1, 1⟩).2.2.2⟩

end HomeSystem
